import Mathlib

/-!
Formal model of the git-history statistics script `generate_stats.py`.

The script parses a pipe-delimited commit log, classifies commit messages,
accumulates statistics, computes a recency-weighted productivity score,
encodes commits as a "musical score", and renders a text report.

Embedding conventions:
- Python dicts (insertion-ordered) are association lists; `bump` models
  `defaultdict(int)` increment (first occurrence appends at the end).
- Python floats are modelled as rationals; the numeric claims are about the
  real-number value of the expressions, not binary-float rounding.
- Operations that can raise in Python (division by zero, a failing
  `fromisoformat`) return `Option`.
-/

/-- Commit classification tags, the six values produced by the keyword
matching in `analyze_git_history` and in `create_musical_representation`. -/
inductive CommitType where
  | release
  | fix
  | feature
  | merge
  | test
  | other
deriving DecidableEq, Repr

/-- Dictionary key string written for each tag by `analyze_git_history`
(`stats['commit_types'][...]`). -/
def tagStr : CommitType → String
  | CommitType.release => "release"
  | CommitType.fix => "fix"
  | CommitType.feature => "feature"
  | CommitType.merge => "merge"
  | CommitType.test => "test"
  | CommitType.other => "other"

/-- Character-list test whether the first list starts the second
(helper for the substring test below). -/
def leadsWith : List Char → List Char → Bool
  | [], _ => true
  | _ :: _, [] => false
  | a :: as, b :: bs => a == b && leadsWith as bs

/-- Model of the Python substring operator `needle in haystack`
on character lists. -/
def occursIn (needle : List Char) : List Char → Bool
  | [] => leadsWith needle []
  | c :: cs => leadsWith needle (c :: cs) || occursIn needle cs

/-- Model of `kw in msg` for strings (Python substring containment). -/
def kwIn (kw msg : String) : Bool := occursIn kw.data msg.data

/-- Model of Python `str.lower()`: lowercase each character
(ASCII as far as the keyword matching is concerned). -/
def lowerStr (s : String) : String := String.mk (s.data.map Char.toLower)

/-- Commit-message classifier as inlined in `analyze_git_history`
(lines 76-92): lowercase the message, then first keyword match wins in the
order release/version, fix, add/implement, merge, test, otherwise other. -/
def classify_type (message : String) : CommitType :=
  let msg_lower := lowerStr message
  if kwIn "release" msg_lower || kwIn "version" msg_lower then CommitType.release
  else if kwIn "fix" msg_lower then CommitType.fix
  else if kwIn "add" msg_lower || kwIn "implement" msg_lower then CommitType.feature
  else if kwIn "merge" msg_lower then CommitType.merge
  else if kwIn "test" msg_lower then CommitType.test
  else CommitType.other

/-- Commit-message classifier as inlined in `create_musical_representation`
(lines 157-170): `commit_type` starts as `'other'` and the same keyword
chain reassigns it. -/
def classify_note (message : String) : CommitType :=
  let msg_lower := lowerStr message
  let commit_type := CommitType.other
  if kwIn "release" msg_lower || kwIn "version" msg_lower then CommitType.release
  else if kwIn "fix" msg_lower then CommitType.fix
  else if kwIn "add" msg_lower || kwIn "implement" msg_lower then CommitType.feature
  else if kwIn "merge" msg_lower then CommitType.merge
  else if kwIn "test" msg_lower then CommitType.test
  else commit_type

/-- C1 (counterexample): the message "fix add version" contains both "fix"
and "add", yet the classifier returns release (the "version" keyword is
checked first), so "for every message containing both 'fix' and 'add' the
result is fix" is false as stated. -/
theorem c1_counterexample :
    kwIn "fix" (lowerStr "fix add version") = true ∧
    kwIn "add" (lowerStr "fix add version") = true ∧
    classify_type "fix add version" = CommitType.release ∧
    CommitType.release ≠ CommitType.fix := by decide

/-- C1 (amended): the classifier is total and deterministic and matches
case-insensitive substrings in the priority order release/version, fix,
add/implement, merge, test, other (each tag is returned exactly when its
keywords match and no earlier keyword does); in particular a message
containing "release" is always classified release, and a message containing
both "fix" and "add" but neither "release" nor "version" is classified fix. -/
theorem c1_classifier_priority (msg : String) :
    (classify_type msg = CommitType.release ↔
      (kwIn "release" (lowerStr msg) = true ∨ kwIn "version" (lowerStr msg) = true)) ∧
    (classify_type msg = CommitType.fix ↔
      (kwIn "fix" (lowerStr msg) = true ∧
       kwIn "release" (lowerStr msg) = false ∧ kwIn "version" (lowerStr msg) = false)) ∧
    (classify_type msg = CommitType.feature ↔
      ((kwIn "add" (lowerStr msg) = true ∨ kwIn "implement" (lowerStr msg) = true) ∧
       kwIn "fix" (lowerStr msg) = false ∧
       kwIn "release" (lowerStr msg) = false ∧ kwIn "version" (lowerStr msg) = false)) ∧
    (classify_type msg = CommitType.merge ↔
      (kwIn "merge" (lowerStr msg) = true ∧
       kwIn "add" (lowerStr msg) = false ∧ kwIn "implement" (lowerStr msg) = false ∧
       kwIn "fix" (lowerStr msg) = false ∧
       kwIn "release" (lowerStr msg) = false ∧ kwIn "version" (lowerStr msg) = false)) ∧
    (classify_type msg = CommitType.test ↔
      (kwIn "test" (lowerStr msg) = true ∧ kwIn "merge" (lowerStr msg) = false ∧
       kwIn "add" (lowerStr msg) = false ∧ kwIn "implement" (lowerStr msg) = false ∧
       kwIn "fix" (lowerStr msg) = false ∧
       kwIn "release" (lowerStr msg) = false ∧ kwIn "version" (lowerStr msg) = false)) ∧
    (classify_type msg = CommitType.other ↔
      (kwIn "test" (lowerStr msg) = false ∧ kwIn "merge" (lowerStr msg) = false ∧
       kwIn "add" (lowerStr msg) = false ∧ kwIn "implement" (lowerStr msg) = false ∧
       kwIn "fix" (lowerStr msg) = false ∧
       kwIn "release" (lowerStr msg) = false ∧ kwIn "version" (lowerStr msg) = false)) ∧
    (kwIn "release" (lowerStr msg) = true → classify_type msg = CommitType.release) ∧
    (kwIn "fix" (lowerStr msg) = true → kwIn "add" (lowerStr msg) = true →
     kwIn "release" (lowerStr msg) = false → kwIn "version" (lowerStr msg) = false →
     classify_type msg = CommitType.fix) := by
  simp only [classify_type]
  cases hrel : kwIn "release" (lowerStr msg) <;>
    cases hver : kwIn "version" (lowerStr msg) <;>
    cases hfix : kwIn "fix" (lowerStr msg) <;>
    cases hadd : kwIn "add" (lowerStr msg) <;>
    cases himp : kwIn "implement" (lowerStr msg) <;>
    cases hmer : kwIn "merge" (lowerStr msg) <;>
    cases htst : kwIn "test" (lowerStr msg) <;>
    simp_all

/-- C1 (witness): the amended characterization evaluated at the message
"release: fix typo", which is classified release. -/
theorem c1_classifier_priority_witness :
    (classify_type "release: fix typo" = CommitType.release ↔
      (kwIn "release" (lowerStr "release: fix typo") = true ∨
       kwIn "version" (lowerStr "release: fix typo") = true)) ∧
    (classify_type "release: fix typo" = CommitType.fix ↔
      (kwIn "fix" (lowerStr "release: fix typo") = true ∧
       kwIn "release" (lowerStr "release: fix typo") = false ∧
       kwIn "version" (lowerStr "release: fix typo") = false)) ∧
    (classify_type "release: fix typo" = CommitType.feature ↔
      ((kwIn "add" (lowerStr "release: fix typo") = true ∨
        kwIn "implement" (lowerStr "release: fix typo") = true) ∧
       kwIn "fix" (lowerStr "release: fix typo") = false ∧
       kwIn "release" (lowerStr "release: fix typo") = false ∧
       kwIn "version" (lowerStr "release: fix typo") = false)) ∧
    (classify_type "release: fix typo" = CommitType.merge ↔
      (kwIn "merge" (lowerStr "release: fix typo") = true ∧
       kwIn "add" (lowerStr "release: fix typo") = false ∧
       kwIn "implement" (lowerStr "release: fix typo") = false ∧
       kwIn "fix" (lowerStr "release: fix typo") = false ∧
       kwIn "release" (lowerStr "release: fix typo") = false ∧
       kwIn "version" (lowerStr "release: fix typo") = false)) ∧
    (classify_type "release: fix typo" = CommitType.test ↔
      (kwIn "test" (lowerStr "release: fix typo") = true ∧
       kwIn "merge" (lowerStr "release: fix typo") = false ∧
       kwIn "add" (lowerStr "release: fix typo") = false ∧
       kwIn "implement" (lowerStr "release: fix typo") = false ∧
       kwIn "fix" (lowerStr "release: fix typo") = false ∧
       kwIn "release" (lowerStr "release: fix typo") = false ∧
       kwIn "version" (lowerStr "release: fix typo") = false)) ∧
    (classify_type "release: fix typo" = CommitType.other ↔
      (kwIn "test" (lowerStr "release: fix typo") = false ∧
       kwIn "merge" (lowerStr "release: fix typo") = false ∧
       kwIn "add" (lowerStr "release: fix typo") = false ∧
       kwIn "implement" (lowerStr "release: fix typo") = false ∧
       kwIn "fix" (lowerStr "release: fix typo") = false ∧
       kwIn "release" (lowerStr "release: fix typo") = false ∧
       kwIn "version" (lowerStr "release: fix typo") = false)) ∧
    (kwIn "release" (lowerStr "release: fix typo") = true →
     classify_type "release: fix typo" = CommitType.release) ∧
    (kwIn "fix" (lowerStr "release: fix typo") = true →
     kwIn "add" (lowerStr "release: fix typo") = true →
     kwIn "release" (lowerStr "release: fix typo") = false →
     kwIn "version" (lowerStr "release: fix typo") = false →
     classify_type "release: fix typo" = CommitType.fix) :=
  c1_classifier_priority "release: fix typo"

/-- C10: the keyword-matching block inlined in the musical encoder computes
the same tag as the keyword-matching block inlined in the statistics
aggregator, for every commit message. -/
theorem c10_classifiers_agree : ∀ msg : String, classify_type msg = classify_note msg :=
  fun _ => rfl

/-- Parsed date-time value, modelling the fields of a Python `datetime`
that the script reads (year/month/day/hour plus the rest of the parse). -/
structure DateTime where
  year : Nat
  month : Nat
  day : Nat
  hour : Nat
  minute : Nat
  second : Nat
  micro : Nat
  offSeconds : Int
deriving DecidableEq, Repr

/-- Gregorian leap-year rule, as validated by `datetime`. -/
def isLeap (y : Nat) : Bool := y % 4 == 0 && (y % 100 != 0 || y % 400 == 0)

/-- Number of days in a month, as validated by `datetime`. -/
def daysInMonth (y m : Nat) : Nat :=
  if m = 2 then (if isLeap y then 29 else 28)
  else if m = 4 ∨ m = 6 ∨ m = 9 ∨ m = 11 then 30
  else 31

/-- Numeric value of a decimal digit character. -/
def digitVal (c : Char) : Nat := c.toNat - '0'.toNat

/-- Read exactly `n` decimal digits, returning their value and the rest. -/
def readNDigits : Nat → Nat → List Char → Option (Nat × List Char)
  | 0, acc, rest => some (acc, rest)
  | n + 1, acc, c :: rest =>
      if c.isDigit then readNDigits n (acc * 10 + digitVal c) rest else none
  | _ + 1, _, [] => none

/-- Consume one expected character. -/
def expectChar (c : Char) : List Char → Option (List Char)
  | d :: rest => if d == c then some rest else none
  | [] => none

/-- Time-of-day part of the ISO grammar `HH[:MM[:SS[.fff[fff]]]]`,
returning hour, minute, second, microsecond and the unread rest. -/
def parseTime (l : List Char) : Option (Nat × Nat × Nat × Nat × List Char) := do
  let (hh, r1) ← readNDigits 2 0 l
  if hh ≤ 23 then
    match expectChar ':' r1 with
    | none => some (hh, 0, 0, 0, r1)
    | some r2 => do
      let (mi, r3) ← readNDigits 2 0 r2
      if mi ≤ 59 then
        match expectChar ':' r3 with
        | none => some (hh, mi, 0, 0, r3)
        | some r4 => do
          let (ss, r5) ← readNDigits 2 0 r4
          if ss ≤ 59 then
            match r5 with
            | '.' :: r6 =>
              match readNDigits 6 0 r6 with
              | some (us, r7) => some (hh, mi, ss, us, r7)
              | none => do
                let (ms, r7) ← readNDigits 3 0 r6
                some (hh, mi, ss, ms * 1000, r7)
            | _ => some (hh, mi, ss, 0, r5)
          else none
      else none
  else none

/-- Timezone-offset part of the ISO grammar `[+-]HH:MM[:SS]`, returning the
offset in seconds (0 when absent, i.e. a naive datetime); the offset must be
strictly less than 24 hours in magnitude, as `timezone` validates. -/
def parseOffset (l : List Char) : Option (Int × List Char) :=
  match l with
  | [] => some (0, [])
  | c :: rest =>
    if c == '+' || c == '-' then do
      let (oh, r1) ← readNDigits 2 0 rest
      let r2 ← expectChar ':' r1
      let (om, r3) ← readNDigits 2 0 r2
      let (osec, r5) ←
        match expectChar ':' r3 with
        | none => some ((0 : Nat), r3)
        | some r4 => readNDigits 2 0 r4
      let total : Nat := oh * 3600 + om * 60 + osec
      if total < 24 * 3600 then
        some (if c == '-' then -(total : Int) else (total : Int), r5)
      else none
    else none

/-- Model of the CPython (pre-3.11) `datetime.fromisoformat` grammar
`YYYY-MM-DD[<any one separator char>HH[:MM[:SS[.fff[fff]]]][+-HH:MM[:SS]]]`
with calendar validation; fractional offsets are not modelled. -/
def parseIsoChars (l : List Char) : Option DateTime := do
  let (y, r1) ← readNDigits 4 0 l
  let r2 ← expectChar '-' r1
  let (mo, r3) ← readNDigits 2 0 r2
  let r4 ← expectChar '-' r3
  let (d, r5) ← readNDigits 2 0 r4
  if 1 ≤ y ∧ 1 ≤ mo ∧ mo ≤ 12 ∧ 1 ≤ d ∧ d ≤ daysInMonth y mo then
    match r5 with
    | [] => some ⟨y, mo, d, 0, 0, 0, 0, 0⟩
    | _ :: r6 => do
      let (hh, mi, ss, us, r7) ← parseTime r6
      let (off, r8) ← parseOffset r7
      if r8 = [] then some ⟨y, mo, d, hh, mi, ss, us, off⟩ else none
  else none

/-- Model of `date_str.replace('Z', '+00:00')`: `str.replace` substitutes
every occurrence of the single character `Z`. -/
def replaceZ : List Char → List Char
  | [] => []
  | c :: cs =>
      if c == 'Z' then '+' :: '0' :: '0' :: ':' :: '0' :: '0' :: replaceZ cs
      else c :: replaceZ cs

/-- Date parsing as done by the commit loop (line 52):
`datetime.fromisoformat(date_str.replace('Z', '+00:00'))`. -/
def parseDate (s : String) : Option DateTime :=
  parseIsoChars (replaceZ s.data)

/-- Days since 1970-01-01 of a civil date (standard days-from-civil
computation, matching `datetime` subtraction). -/
def daysFromCivil (y m d : Nat) : Int :=
  let yy := y - (if m ≤ 2 then 1 else 0)
  let era := yy / 400
  let yoe := yy % 400
  let mp := if 2 < m then m - 3 else m + 9
  let doy := (153 * mp + 2) / 5 + d - 1
  let doe := yoe * 365 + yoe / 4 - yoe / 100 + doy
  ((era * 146097 + doe : Nat) : Int) - 719468

/-- Weekday with Sunday = 0 (1970-01-01 was a Thursday, index 4). -/
def wSun0 (y m d : Nat) : Nat := ((daysFromCivil y m d + 4) % 7).toNat

/-- Zero-based day of the year. -/
def yday0 (y m d : Nat) : Nat := (daysFromCivil y m d - daysFromCivil y 1 1).toNat

/-- Week number under `strftime('%U')`: Sunday starts the week and days
before the first Sunday of the year are week 0. -/
def weekU (y m d : Nat) : Nat := (yday0 y m d + 7 - wSun0 y m d) / 7

/-- Zero-pad a number to two digits, as `%m`, `%d`, `%U` and `{:02d}` do. -/
def pad2 (n : Nat) : String := if n < 10 then "0" ++ toString n else toString n

/-- Zero-pad a year to four digits, as `%Y` does for the years in range. -/
def pad4 (n : Nat) : String :=
  (if n < 10 then "000" else if n < 100 then "00" else if n < 1000 then "0" else "")
    ++ toString n

/-- Derived field `commit['day'] = date.strftime('%Y-%m-%d')`. -/
def dayStr (dt : DateTime) : String :=
  pad4 dt.year ++ "-" ++ pad2 dt.month ++ "-" ++ pad2 dt.day

/-- Derived field `commit['weekday'] = date.strftime('%A')`. -/
def weekdayName (dt : DateTime) : String :=
  ["Monday", "Tuesday", "Wednesday", "Thursday", "Friday", "Saturday", "Sunday"].getD
    (((daysFromCivil dt.year dt.month dt.day + 3) % 7).toNat) ""

/-- Week label `date.strftime('%Y-W%U')` used by the musical encoder. -/
def weekLabel (dt : DateTime) : String :=
  pad4 dt.year ++ "-W" ++ pad2 (weekU dt.year dt.month dt.day)

/-- Microseconds since the epoch of a datetime read as naive (tzinfo is
ignored by naive `datetime` subtraction, which is how the script subtracts). -/
def toNaiveMicros (dt : DateTime) : Int :=
  daysFromCivil dt.year dt.month dt.day * 86400000000
    + (((dt.hour * 3600 + dt.minute * 60 + dt.second) * 1000000 + dt.micro : Nat) : Int)

/-- Model of `(today - day_date).days`: `timedelta.days` is the floor of the
difference in whole days. -/
def ageDays (today dt : DateTime) : Int :=
  Int.fdiv (toNaiveMicros today - toNaiveMicros dt) 86400000000

/-- Model of Python `str.split` with a single-character separator
(`line.split('|')`, `files_changed.split('\n')`, `file.split('.')`). -/
def splitOnChar (sep : Char) : List Char → List (List Char)
  | [] => [[]]
  | c :: cs =>
    match splitOnChar sep cs with
    | [] => [[]]
    | h :: t => if c = sep then [] :: h :: t else (c :: h) :: t

/-- String wrapper around `splitOnChar`. -/
def splitStr (sep : Char) (s : String) : List String :=
  (splitOnChar sep s.data).map String.mk

/-- Association-list increment modelling `defaultdict(int)`'s `m[k] += 1`:
a key's first occurrence is appended at the end (dict insertion order). -/
def bump [BEq α] (k : α) : List (α × Nat) → List (α × Nat)
  | [] => [(k, 1)]
  | (k', v) :: rest => if k' == k then (k', v + 1) :: rest else (k', v) :: bump k rest

/-- First-match association lookup with a default, modelling dict lookup. -/
def lookupD [BEq α] (l : List (α × β)) (k : α) (dflt : β) : β :=
  match l with
  | [] => dflt
  | (k', v) :: rest => if k' == k then v else lookupD rest k dflt

/-- Sum of the values of a counter dict (`sum(m.values())`). -/
def sumValues (l : List (α × Nat)) : Nat := (l.map Prod.snd).sum

/-- One parsed log entry (the `commit` dict built at lines 56-65). -/
structure Commit where
  hash : String
  author : String
  email : String
  date : DateTime
  message : String
  day : String
  hour : Nat
  weekday : String
deriving DecidableEq, Repr

/-- The `stats` accumulator (lines 26-36), with each `defaultdict` as an
insertion-ordered association list. -/
structure Stats where
  total_commits : Nat
  authors : List (String × Nat)
  commits_by_day : List (String × Nat)
  commits_by_hour : List (Nat × Nat)
  commit_types : List (String × Nat)
  file_changes : List (String × Nat)
  languages : List (String × Nat)
  release_history : List (String × String)
  productivity_score : List (String × ℚ)
deriving DecidableEq, Repr

/-- The accumulator's initial value. -/
def emptyStats : Stats :=
  { total_commits := 0, authors := [], commits_by_day := [], commits_by_hour := [],
    commit_types := [], file_changes := [], languages := [], release_history := [],
    productivity_score := [] }

/-- Extension extraction `file.split('.')[-1]` (line 101). -/
def lastExt (file : String) : String :=
  String.mk ((splitOnChar '.' file.data).getLastD [])

/-- Per-file update of the aggregation loop (lines 96-102): skip empty
strings, count the path in `file_changes`, and when the path contains a dot
count the substring after the last dot in `languages`. -/
def processFile (s : Stats) (file : String) : Stats :=
  if file == "" then s
  else
    let s1 := { s with file_changes := bump file s.file_changes }
    if file.data.contains '.' then
      { s1 with languages := bump (lastExt file) s1.languages }
    else s1

/-- One iteration of the commit loop (lines 38-102) on a raw log line: skip
empty lines, split on the pipe, require at least five fields, parse the date,
then append the commit record and update every counter; the classified tag
is counted and release-classified commits are appended to the release
history; finally the changed files of the commit are folded in. -/
def processCommitLine (filesFor : String → String) (acc : List Commit × Stats)
    (line : String) : List Commit × Stats :=
  if line == "" then acc
  else
    let parts := splitStr '|' line
    if 5 ≤ parts.length then
      match parseDate (parts.getD 3 "") with
      | none => acc
      | some date =>
        let commit : Commit :=
          { hash := parts.getD 0 "", author := parts.getD 1 "", email := parts.getD 2 "",
            date := date, message := parts.getD 4 "",
            day := dayStr date, hour := date.hour, weekday := weekdayName date }
        let s0 := acc.2
        let s1 := { s0 with
          total_commits := s0.total_commits + 1,
          authors := bump commit.author s0.authors,
          commits_by_day := bump commit.day s0.commits_by_day,
          commits_by_hour := bump commit.hour s0.commits_by_hour }
        let t := classify_type commit.message
        let s2 := { s1 with
          commit_types := bump (tagStr t) s1.commit_types,
          release_history :=
            if t = CommitType.release then
              s1.release_history ++ [(commit.day, commit.message)]
            else s1.release_history }
        let s3 := (splitStr '\n' (filesFor commit.hash)).foldl processFile s2
        (acc.1 ++ [commit], s3)
    else acc

/-- The aggregation pass of `analyze_git_history` over the raw log output. -/
def analyzeLoop (filesFor : String → String) (commitsRaw : String) :
    List Commit × Stats :=
  (splitStr '\n' commitsRaw).foldl (processCommitLine filesFor) ([], emptyStats)

/-- Python division, raising (here: `none`) on a zero divisor. -/
def pyDiv (a b : ℚ) : Option ℚ := if b = 0 then none else some (a / b)

/-- Decay factor `1.0 / (1 + age_days / 30)` (line 110) as a function of the
whole-day age. -/
def weightOf (age : Int) : ℚ := 1 / (1 + (age : ℚ) / 30)

/-- Productivity entry for one `commits_by_day` entry (lines 106-111):
re-parse the day string, take the floored day difference to `today`, and
weight the count by the decayed age. -/
def finalizeOne (today : DateTime) (e : String × Nat) : Option (String × ℚ) := do
  let dt ← parseIsoChars e.1.data
  let w ← pyDiv 1 (1 + ((ageDays today dt : Int) : ℚ) / 30)
  some (e.1, (e.2 : ℚ) * w)

/-- Option-valued map over a list, failing on the first failing element,
modelling a Python loop whose body can raise. -/
def mapOpt (f : α → Option β) : List α → Option (List β)
  | [] => some []
  | a :: l => do
    let b ← f a
    let bs ← mapOpt f l
    some (b :: bs)

/-- Finalization pass computing `productivity_score` (lines 104-111). -/
def finalizeStats (today : DateTime) (s : Stats) : Option Stats := do
  let ps ← mapOpt (finalizeOne today) s.commits_by_day
  some { s with productivity_score := ps }

/-- Whole analysis `analyze_git_history`, given the raw `git log` output,
the per-hash `git diff-tree` output, and the current time
(`datetime.now()`). -/
def analyze_git_history (filesFor : String → String) (commitsRaw : String)
    (today : DateTime) : List Commit × Option Stats :=
  let r := analyzeLoop filesFor commitsRaw
  (r.1, finalizeStats today r.2)

/-- Predicate deciding whether a raw log line yields a commit record:
non-empty, at least five pipe-separated fields, and a date field that
parses after the `Z` replacement. -/
def lineOk (line : String) : Bool :=
  !(line == "") && decide (5 ≤ (splitStr '|' line).length)
    && (parseDate ((splitStr '|' line).getD 3 "")).isSome

theorem sumValues_bump [BEq α] (k : α) (l : List (α × Nat)) :
    sumValues (bump k l) = sumValues l + 1 := by
  induction l with
  | nil => simp [bump, sumValues]
  | cons e rest ih =>
    obtain ⟨k', v⟩ := e
    by_cases h : (k' == k) = true
    · simp only [bump, h, if_true, sumValues, List.map_cons, List.sum_cons]
      omega
    · simp only [bump, h, if_false, Bool.false_eq_true]
      simp only [sumValues, List.map_cons, List.sum_cons] at ih ⊢
      omega

theorem processFile_preserves (s : Stats) (f : String) :
    (processFile s f).commit_types = s.commit_types ∧
    (processFile s f).total_commits = s.total_commits := by
  unfold processFile
  split
  · exact ⟨rfl, rfl⟩
  · split
    · exact ⟨rfl, rfl⟩
    · exact ⟨rfl, rfl⟩

theorem foldl_processFile_preserves (files : List String) (s : Stats) :
    (files.foldl processFile s).commit_types = s.commit_types ∧
    (files.foldl processFile s).total_commits = s.total_commits := by
  induction files generalizing s with
  | nil => exact ⟨rfl, rfl⟩
  | cons f rest ih =>
    simp only [List.foldl_cons]
    obtain ⟨h1, h2⟩ := ih (processFile s f)
    obtain ⟨h3, h4⟩ := processFile_preserves s f
    exact ⟨h1.trans h3, h2.trans h4⟩

theorem processCommitLine_invariant (filesFor : String → String)
    (acc : List Commit × Stats) (line : String) :
    sumValues (processCommitLine filesFor acc line).2.commit_types
        + acc.2.total_commits
      = (processCommitLine filesFor acc line).2.total_commits
        + sumValues acc.2.commit_types := by
  simp only [processCommitLine]
  split
  · omega
  · split
    · split
      · omega
      · rw [(foldl_processFile_preserves _ _).1, (foldl_processFile_preserves _ _).2]
        simp only [sumValues_bump]
        omega
    · omega

/-- C3: after the aggregation pass, the counts recorded in `commit_types`
sum to `total_commits`: every parsed commit increments the total exactly
once and exactly one classification bucket exactly once. -/
theorem c3_commit_types_sum_total (filesFor : String → String) (commitsRaw : String) :
    sumValues (analyzeLoop filesFor commitsRaw).2.commit_types
      = (analyzeLoop filesFor commitsRaw).2.total_commits := by
  have key : ∀ (lines : List String) (acc : List Commit × Stats),
      sumValues (lines.foldl (processCommitLine filesFor) acc).2.commit_types
          + acc.2.total_commits
        = (lines.foldl (processCommitLine filesFor) acc).2.total_commits
          + sumValues acc.2.commit_types := by
    intro lines
    induction lines with
    | nil => intro acc; simp only [List.foldl_nil]; omega
    | cons l rest ih =>
      intro acc
      simp only [List.foldl_cons]
      have h1 := ih (processCommitLine filesFor acc l)
      have h2 := processCommitLine_invariant filesFor acc l
      omega
  have h := key (splitStr '\n' commitsRaw) ([], emptyStats)
  simpa [analyzeLoop, emptyStats, sumValues] using h

theorem processCommitLine_skip (filesFor : String → String)
    (acc : List Commit × Stats) (line : String) (h : lineOk line = false) :
    processCommitLine filesFor acc line = acc := by
  simp only [processCommitLine]
  split
  · rfl
  · rename_i h0
    split
    · rename_i h5
      split
      · rfl
      · rename_i date hp
        exfalso
        rw [lineOk, hp] at h
        simp [h0, h5] at h
    · rfl

theorem processCommitLine_length (filesFor : String → String)
    (acc : List Commit × Stats) (line : String) :
    (processCommitLine filesFor acc line).1.length
      = acc.1.length + (if lineOk line = true then 1 else 0) := by
  by_cases h : lineOk line = true
  · simp only [h, if_true]
    simp only [lineOk, Bool.and_eq_true, Bool.not_eq_true', decide_eq_true_eq,
      Option.isSome_iff_exists] at h
    obtain ⟨⟨h0, h5⟩, date, hp⟩ := h
    simp only [processCommitLine, h0, Bool.false_eq_true, if_false, h5, if_true, hp,
      List.length_append, List.length_cons, List.length_nil]
  · rw [processCommitLine_skip filesFor acc line (by simpa using h)]
    simp [h]

theorem replaceZ_trailing (l : List Char) (h : ∀ c ∈ l, c ≠ 'Z') :
    replaceZ (l ++ ['Z']) = l ++ ('+' :: '0' :: '0' :: ':' :: '0' :: '0' :: []) := by
  induction l with
  | nil => rfl
  | cons c cs ih =>
    have hc : (c == 'Z') = false := by
      simpa using h c (List.mem_cons_self c cs)
    simp only [List.cons_append, replaceZ, hc, Bool.false_eq_true, if_false,
      List.append_eq]
    rw [ih (fun x hx => h x (List.mem_cons_of_mem c hx))]

/-- C4: the number of commit records produced equals the number of raw
lines that are non-empty, split into at least five pipe-separated fields,
and carry a parseable date field; every other line leaves the whole
accumulator untouched; and a trailing `Z` on an otherwise `Z`-free date
string is rewritten to the `+00:00` suffix before parsing. -/
theorem c4_parser_cardinality (filesFor : String → String) (commitsRaw : String) :
    (analyzeLoop filesFor commitsRaw).1.length
      = ((splitStr '\n' commitsRaw).filter (fun l => lineOk l)).length
    ∧ (∀ (line : String) (acc : List Commit × Stats), lineOk line = false →
        processCommitLine filesFor acc line = acc)
    ∧ (∀ l : List Char, (∀ c ∈ l, c ≠ 'Z') →
        replaceZ (l ++ ['Z']) = l ++ ('+' :: '0' :: '0' :: ':' :: '0' :: '0' :: [])) := by
  refine ⟨?_, fun line acc h => processCommitLine_skip filesFor acc line h,
    replaceZ_trailing⟩
  have key : ∀ (lines : List String) (acc : List Commit × Stats),
      (lines.foldl (processCommitLine filesFor) acc).1.length
        = acc.1.length + lines.countP (fun l => lineOk l) := by
    intro lines
    induction lines with
    | nil => intro acc; simp
    | cons l rest ih =>
      intro acc
      simp only [List.foldl_cons, List.countP_cons, ih,
        processCommitLine_length filesFor acc l]
      omega
  have h := key (splitStr '\n' commitsRaw) ([], emptyStats)
  simpa [analyzeLoop, List.countP_eq_length_filter] using h

/-- C4 (witness): the cardinality property evaluated on a three-line log in
which the middle line has an unparseable date: exactly two records result. -/
theorem c4_parser_cardinality_witness :
    ((analyzeLoop (fun _ => "")
        "a|Al|a@x|2024-01-01T10:00:00+00:00|fix|\nb|Bo|b@x|nodate|fix|\nc|Al|a@x|2024-01-02T09:00:00Z|release|").1.length
      = ((splitStr '\n'
        "a|Al|a@x|2024-01-01T10:00:00+00:00|fix|\nb|Bo|b@x|nodate|fix|\nc|Al|a@x|2024-01-02T09:00:00Z|release|").filter
          (fun l => lineOk l)).length)
    ∧ (∀ (line : String) (acc : List Commit × Stats), lineOk line = false →
        processCommitLine (fun _ => "") acc line = acc)
    ∧ (∀ l : List Char, (∀ c ∈ l, c ≠ 'Z') →
        replaceZ (l ++ ['Z']) = l ++ ('+' :: '0' :: '0' :: ':' :: '0' :: '0' :: [])) :=
  c4_parser_cardinality (fun _ => "")
    "a|Al|a@x|2024-01-01T10:00:00+00:00|fix|\nb|Bo|b@x|nodate|fix|\nc|Al|a@x|2024-01-02T09:00:00Z|release|"

theorem lookupD_bump [BEq α] (k : α) (l : List (α × Nat)) (hk : (k == k) = true) :
    lookupD (bump k l) k 0 = lookupD l k 0 + 1 := by
  induction l with
  | nil => simp [bump, lookupD, hk]
  | cons e rest ih =>
    obtain ⟨k', v⟩ := e
    by_cases h : (k' == k) = true
    · simp [bump, lookupD, h]
    · simp [bump, lookupD, h, ih]


theorem splitOnChar_ne_nil (sep : Char) (l : List Char) : splitOnChar sep l ≠ [] := by
  cases l with
  | nil => simp [splitOnChar]
  | cons c cs =>
    simp only [splitOnChar]
    split
    · simp
    · split <;> simp

theorem splitOnChar_no_sep (sep : Char) (l : List Char) (h : sep ∉ l) :
    splitOnChar sep l = [l] := by
  induction l with
  | nil => rfl
  | cons c cs ih =>
    have hc : ¬ c = sep := fun he => h (he ▸ List.mem_cons_self c cs)
    simp only [splitOnChar, ih (fun hm => h (List.mem_cons_of_mem c hm)), if_neg hc]

theorem splitOnChar_sep_mem (sep : Char) (l : List Char) (h : sep ∈ l) :
    2 ≤ (splitOnChar sep l).length := by
  induction l with
  | nil => cases h
  | cons c cs ih =>
    rcases hs : splitOnChar sep cs with _ | ⟨g, t⟩
    · exact absurd hs (splitOnChar_ne_nil sep cs)
    · by_cases hc : c = sep
      · simp [splitOnChar, hs, hc]
      · rcases List.mem_cons.mp h with he | hmem
        · exact absurd he.symm hc
        · have h2 := ih hmem
          rw [hs] at h2
          simp only [List.length_cons] at h2
          simp only [splitOnChar, hs, if_neg hc, List.length_cons]
          omega

theorem takeWhile_append_stop {p : Char → Bool} (xs : List Char) (c : Char)
    (h : p c = false ∨ ∃ x ∈ xs, p x = false) :
    (xs ++ [c]).takeWhile p = xs.takeWhile p := by
  induction xs with
  | nil =>
    rcases h with h | ⟨x, hx, _⟩
    · simp [List.takeWhile_cons, h]
    · cases hx
  | cons x rest ih =>
    by_cases hx : p x = true
    · have hrest : p c = false ∨ ∃ y ∈ rest, p y = false := by
        rcases h with h | ⟨y, hy, hpy⟩
        · exact Or.inl h
        · rcases List.mem_cons.mp hy with rfl | hy2
          · exact absurd hx (by simp [hpy])
          · exact Or.inr ⟨y, hy2, hpy⟩
      simp [List.cons_append, List.takeWhile_cons, hx, ih hrest]
    · simp only [Bool.not_eq_true] at hx
      simp [List.cons_append, List.takeWhile_cons, hx]

theorem takeWhile_append_all {p : Char → Bool} (xs ys : List Char)
    (h : ∀ x ∈ xs, p x = true) :
    (xs ++ ys).takeWhile p = xs ++ ys.takeWhile p := by
  induction xs with
  | nil => simp
  | cons x rest ih =>
    have hx := h x (List.mem_cons_self x rest)
    simp [List.cons_append, List.takeWhile_cons, hx,
      ih (fun y hy => h y (List.mem_cons_of_mem x hy))]

theorem splitOnChar_getLast (sep : Char) (l : List Char) :
    (splitOnChar sep l).getLastD []
      = (l.reverse.takeWhile (fun c => decide (c ≠ sep))).reverse := by
  induction l with
  | nil => rfl
  | cons c cs ih =>
    rcases hs : splitOnChar sep cs with _ | ⟨g, t⟩
    · exact absurd hs (splitOnChar_ne_nil sep cs)
    · rw [hs] at ih
      simp only [splitOnChar, hs, List.reverse_cons]
      by_cases hc : c = sep
      · rw [if_pos hc,
          takeWhile_append_stop _ _ (Or.inl (by simp [hc])),
          List.getLastD_cons]
        exact ih
      · rcases t with _ | ⟨t0, ts⟩
        · have hnosep : sep ∉ cs := by
            intro hmem
            have h2 := splitOnChar_sep_mem sep cs hmem
            rw [hs] at h2
            simp at h2
          have hg : g = cs := by
            have hcs := splitOnChar_no_sep sep cs hnosep
            rw [hs] at hcs
            simpa using hcs
          rw [if_neg hc,
            takeWhile_append_all _ _ (fun x hx => by
              simp only [decide_eq_true_eq]
              exact fun hxe => hnosep (hxe ▸ List.mem_reverse.mp hx))]
          simp [hg, List.takeWhile_cons, hc]
        · have hsep : sep ∈ cs := by
            by_contra hnot
            have hcs := splitOnChar_no_sep sep cs hnot
            rw [hs] at hcs
            simp at hcs
          rw [if_neg hc,
            takeWhile_append_stop _ _ (Or.inr ⟨sep, List.mem_reverse.mpr hsep, by simp⟩),
            List.getLastD_cons, List.getLastD_cons]
          rw [List.getLastD_cons, List.getLastD_cons] at ih
          exact ih

/-- C9: each processed (non-empty) changed-file path increments its
`file_changes` counter; `languages` is incremented exactly when the path
contains a dot, under the key `file.split('.')[-1]`, which equals the
substring after the last dot; a dot-free path leaves `languages` unchanged. -/
theorem c9_file_changes_languages (s : Stats) (file : String) (h : ¬ file = "") :
    lookupD (processFile s file).file_changes file 0
        = lookupD s.file_changes file 0 + 1
    ∧ (file.data.contains '.' = true →
        (processFile s file).languages = bump (lastExt file) s.languages
        ∧ lastExt file
            = String.mk ((file.data.reverse.takeWhile (fun c => c ≠ '.')).reverse))
    ∧ (file.data.contains '.' = false →
        (processFile s file).languages = s.languages) := by
  have hfe : (file == "") = false := by simpa using h
  refine ⟨?_, ?_, ?_⟩
  · simp only [processFile, hfe, Bool.false_eq_true, if_false]
    split
    · exact lookupD_bump file s.file_changes (by simp)
    · exact lookupD_bump file s.file_changes (by simp)
  · intro hdot
    refine ⟨?_, ?_⟩
    · simp only [processFile, hfe, Bool.false_eq_true, if_false, hdot, if_true]
    · unfold lastExt
      rw [splitOnChar_getLast]
  · intro hdot
    simp only [processFile, hfe, hdot, Bool.false_eq_true, if_false]

/-- C9 (witness): the path `a.tar.gz` processed against the empty
accumulator: its change counter rises to one and the language key is the
final suffix `gz`. -/
theorem c9_file_changes_languages_witness :
    (¬ "a.tar.gz" = "")
    ∧ (lookupD (processFile emptyStats "a.tar.gz").file_changes "a.tar.gz" 0
          = lookupD emptyStats.file_changes "a.tar.gz" 0 + 1
      ∧ ("a.tar.gz".data.contains '.' = true →
          (processFile emptyStats "a.tar.gz").languages
              = bump (lastExt "a.tar.gz") emptyStats.languages
          ∧ lastExt "a.tar.gz"
              = String.mk
                  (("a.tar.gz".data.reverse.takeWhile (fun c => c ≠ '.')).reverse))
      ∧ ("a.tar.gz".data.contains '.' = false →
          (processFile emptyStats "a.tar.gz").languages = emptyStats.languages)) :=
  ⟨by decide, c9_file_changes_languages emptyStats "a.tar.gz" (by decide)⟩

theorem weightOf_zero : weightOf 0 = 1 := by norm_num [weightOf]

theorem weightOf_strict_anti (a b : Int) (ha : 0 ≤ a) (hab : a < b) :
    weightOf b < weightOf a := by
  unfold weightOf
  have ha' : (0 : ℚ) ≤ (a : ℚ) := by exact_mod_cast ha
  have hab' : (a : ℚ) < (b : ℚ) := by exact_mod_cast hab
  have h1 : (0 : ℚ) < 1 + (a : ℚ) / 30 := by linarith
  have h2 : 1 + (a : ℚ) / 30 < 1 + (b : ℚ) / 30 := by linarith
  exact one_div_lt_one_div_of_lt h1 h2

theorem mapOpt_finalize_lookup (today : DateTime) :
    ∀ (l : List (String × Nat)) (out : List (String × ℚ)),
      mapOpt (finalizeOne today) l = some out →
      ∀ (day : String) (count : Nat), l.lookup day = some count →
      ∃ dt, parseIsoChars day.data = some dt
        ∧ out.lookup day = some ((count : ℚ) * weightOf (ageDays today dt)) := by
  intro l
  induction l with
  | nil =>
    intro out _ day count hl
    cases hl
  | cons e rest ih =>
    intro out h day count hl
    obtain ⟨d0, c0⟩ := e
    rcases hf : finalizeOne today (d0, c0) with _ | b
    · simp [mapOpt, hf] at h
    · rcases hm : mapOpt (finalizeOne today) rest with _ | bs
      · simp [mapOpt, hf, hm] at h
      · simp only [mapOpt, hf, hm, Option.some_bind] at h
        obtain rfl : b :: bs = out := Option.some.inj h
        rcases hp : parseIsoChars d0.data with _ | dt
        · simp [finalizeOne, hp] at hf
        · by_cases hz : (1 + ((ageDays today dt : Int) : ℚ) / 30) = 0
          · simp [finalizeOne, hp, pyDiv, hz] at hf
          · have hb : b = (d0, (c0 : ℚ)
                * (1 + ((ageDays today dt : Int) : ℚ) / 30)⁻¹) := by
              simp [finalizeOne, hp, pyDiv, hz] at hf
              exact hf.symm
            subst hb
            by_cases hd : (day == d0) = true
            · have hday : day = d0 := eq_of_beq hd
              subst hday
              simp only [List.lookup, hd] at hl
              obtain rfl : c0 = count := Option.some.inj hl
              refine ⟨dt, hp, ?_⟩
              simp [List.lookup, weightOf, one_div]
            · have hl2 : List.lookup day rest = some count := by
                simpa [List.lookup, hd] using hl
              obtain ⟨dt2, hp2, ho⟩ := ih bs hm day count hl2
              refine ⟨dt2, hp2, ?_⟩
              simpa [List.lookup, hd] using ho

/-- C5: after finalization, every day of `commits_by_day` has
`productivity_score[day] = count * 1/(1 + age_days/30)` with `age_days` the
floored whole-day age of that day relative to report-generation time; the
weight factor is exactly 1 at age 0 and strictly decreases as the age
increases. -/
theorem c5_productivity_decay (today : DateTime) (s s' : Stats)
    (hfin : finalizeStats today s = some s') :
    (∀ (day : String) (count : Nat), s.commits_by_day.lookup day = some count →
      ∃ dt, parseIsoChars day.data = some dt
        ∧ s'.productivity_score.lookup day
            = some ((count : ℚ) * weightOf (ageDays today dt)))
    ∧ weightOf 0 = 1
    ∧ (∀ a b : Int, 0 ≤ a → a < b → weightOf b < weightOf a) := by
  refine ⟨?_, weightOf_zero, weightOf_strict_anti⟩
  intro day count hl
  rcases hm : mapOpt (finalizeOne today) s.commits_by_day with _ | ps
  · simp [finalizeStats, hm] at hfin
  · have hs' : s' = { s with productivity_score := ps } := by
      simp [finalizeStats, hm] at hfin
      exact hfin.symm
    subst hs'
    exact mapOpt_finalize_lookup today s.commits_by_day ps hm day count hl

/-- Report-generation instant used by the concrete witnesses. -/
def wToday : DateTime := ⟨2024, 1, 31, 12, 0, 0, 0, 0⟩

/-- One-day accumulator used by the C5 witness. -/
def wStats5 : Stats := { emptyStats with commits_by_day := [("2024-01-01", 2)] }

/-- Expected finalized accumulator for the C5 witness. -/
def wStats5' : Stats :=
  { emptyStats with
    commits_by_day := [("2024-01-01", 2)],
    productivity_score := [("2024-01-01", 1)] }

/-- C5 (witness): finalizing a single-day accumulator (two commits on
2024-01-01, reported at 2024-01-31 12:00, whole-day age 30) yields
productivity 2 * (1/(1 + 30/30)) = 1. -/
theorem c5_productivity_decay_witness :
    finalizeStats wToday wStats5 = some wStats5'
    ∧ ((∀ (day : String) (count : Nat),
          wStats5.commits_by_day.lookup day = some count →
          ∃ dt, parseIsoChars day.data = some dt
            ∧ wStats5'.productivity_score.lookup day
                = some ((count : ℚ) * weightOf (ageDays wToday dt)))
      ∧ weightOf 0 = 1
      ∧ (∀ a b : Int, 0 ≤ a → a < b → weightOf b < weightOf a)) := by
  have hfin : finalizeStats wToday wStats5 = some wStats5' := by
    have hp : parseIsoChars ("2024-01-01".data)
        = some ⟨2024, 1, 1, 0, 0, 0, 0, 0⟩ := by decide
    have hage : ageDays wToday ⟨2024, 1, 1, 0, 0, 0, 0, 0⟩ = 30 := by decide
    simp [finalizeStats, mapOpt, finalizeOne, wStats5, wStats5', pyDiv, hp, hage]
    norm_num
  exact ⟨hfin, c5_productivity_decay wToday wStats5 wStats5' hfin⟩

/-- One note of the musical score (lines 172-178). -/
structure Note where
  pitch : String
  duration : ℚ
  instrument : String
  velocity : Nat
  time : ℚ
deriving DecidableEq, Repr

/-- One movement: a week's name and its notes (lines 152-155). -/
structure Movement where
  name : String
  notes : List Note
deriving DecidableEq, Repr

/-- The `musical_data` structure (lines 137-142). -/
structure MusicalScore where
  title : String
  tempo : Nat
  time_signature : String
  movements : List Movement
deriving DecidableEq, Repr

/-- Pitch table `note_map` (lines 119-126). -/
def note_map : CommitType → String
  | CommitType.release => "C5"
  | CommitType.feature => "A4"
  | CommitType.fix => "F4"
  | CommitType.merge => "D4"
  | CommitType.test => "G4"
  | CommitType.other => "C4"

/-- Fixed instrument list (line 130). -/
def instruments : List String := ["piano", "violin", "cello", "flute", "guitar"]

/-- Author-to-instrument map (lines 129-134): enumerate the accumulator's
author keys in their stored order and assign `instruments[i % 5]`. -/
def author_instruments (stats : Stats) : List (String × String) :=
  (stats.authors.map Prod.fst).enum.map (fun p => (p.2, instruments.getD (p.1 % 5) ""))

/-- Keys of a `defaultdict(list)` grouping in first-encounter order. -/
def dedupFirstGo (seen : List String) : List String → List String
  | [] => []
  | x :: xs =>
      if x ∈ seen then dedupFirstGo seen xs else x :: dedupFirstGo (x :: seen) xs

/-- First-encounter deduplication of a key stream. -/
def dedupFirst (l : List String) : List String := dedupFirstGo [] l

/-- The keys of `commits_by_week` (lines 145-148) in insertion order. -/
def weekKeys (commits : List Commit) : List String :=
  dedupFirst (commits.map (fun c => weekLabel c.date))

/-- The group `commits_by_week[w]`: the commits of week `w` in stream
order. -/
def commitsOfWeek (commits : List Commit) (w : String) : List Commit :=
  commits.filter (fun c => weekLabel c.date == w)

/-- Stable insertion into an ascending list of week labels. -/
def insertStr (w : String) : List String → List String
  | [] => [w]
  | x :: xs => if w ≤ x then w :: x :: xs else x :: insertStr w xs

/-- Model of Python `sorted` on the distinct week labels (line 151; the
items are sorted by their distinct string keys). -/
def sortStrs : List String → List String
  | [] => []
  | x :: xs => insertStr x (sortStrs xs)

/-- Weeks kept by `sorted(commits_by_week.items())[-10:]`: the last ten
labels in ascending order. -/
def retainedWeeks (commits : List Commit) : List String :=
  let s := sortStrs (weekKeys commits)
  s.drop (s.length - 10)

/-- Note built for one commit (lines 157-178). -/
def mkNote (amap : List (String × String)) (c : Commit) : Note :=
  let t := classify_note c.message
  { pitch := note_map t,
    duration := if t = CommitType.release then 1 else 1 / 2,
    instrument := lookupD amap c.author "piano",
    velocity := if t = CommitType.release then 100 else 80,
    time := (c.hour : ℚ) / 24 }

/-- The musical encoder `create_musical_representation` (lines 115-184). -/
def create_musical_representation (commits : List Commit) (stats : Stats) :
    MusicalScore :=
  let amap := author_instruments stats
  { title := "The Para Symphony - A Git History in Music",
    tempo := 120,
    time_signature := "4/4",
    movements := (retainedWeeks commits).map (fun w =>
      { name := "Week of " ++ w,
        notes := (commitsOfWeek commits w).map (mkNote amap) }) }

theorem insertStr_perm (w : String) (l : List String) :
    (insertStr w l).Perm (w :: l) := by
  induction l with
  | nil => exact List.Perm.refl _
  | cons x xs ih =>
    by_cases h : w ≤ x
    · simp only [insertStr, if_pos h]
      exact List.Perm.refl _
    · simp only [insertStr, if_neg h]
      exact (ih.cons x).trans (List.Perm.swap w x xs)

theorem sortStrs_perm (l : List String) : (sortStrs l).Perm l := by
  induction l with
  | nil => exact List.Perm.refl _
  | cons x xs ih => exact (insertStr_perm x (sortStrs xs)).trans (ih.cons x)

theorem insertStr_sorted (w : String) (l : List String)
    (h : l.Pairwise (· ≤ ·)) : (insertStr w l).Pairwise (· ≤ ·) := by
  induction l with
  | nil => simp [insertStr]
  | cons x xs ih =>
    obtain ⟨hx, hxs⟩ := List.pairwise_cons.mp h
    by_cases hw : w ≤ x
    · simp only [insertStr, if_pos hw]
      refine List.pairwise_cons.mpr ⟨?_, h⟩
      intro b hb
      rcases List.mem_cons.mp hb with rfl | hb2
      · exact hw
      · exact le_trans hw (hx b hb2)
    · simp only [insertStr, if_neg hw]
      refine List.pairwise_cons.mpr ⟨?_, ih hxs⟩
      intro b hb
      have hmem : b ∈ w :: xs := (insertStr_perm w xs).subset hb
      rcases List.mem_cons.mp hmem with rfl | hb2
      · exact le_of_not_le hw
      · exact hx b hb2

theorem sortStrs_sorted (l : List String) : (sortStrs l).Pairwise (· ≤ ·) := by
  induction l with
  | nil => simp [sortStrs]
  | cons x xs ih => exact insertStr_sorted x (sortStrs xs) ih

theorem dedupFirstGo_nodup (l : List String) :
    ∀ seen : List String, (dedupFirstGo seen l).Nodup
      ∧ ∀ x ∈ dedupFirstGo seen l, x ∉ seen := by
  induction l with
  | nil =>
    intro seen
    exact ⟨List.nodup_nil, by simp [dedupFirstGo]⟩
  | cons x xs ih =>
    intro seen
    by_cases h : x ∈ seen
    · simp only [dedupFirstGo, if_pos h]
      exact ih seen
    · simp only [dedupFirstGo, if_neg h]
      obtain ⟨hnd, hs⟩ := ih (x :: seen)
      refine ⟨List.nodup_cons.mpr
        ⟨fun hmem => (hs x hmem) (List.mem_cons_self x seen), hnd⟩, ?_⟩
      intro y hy
      rcases List.mem_cons.mp hy with rfl | hy2
      · exact h
      · exact fun hins => (hs y hy2) (List.mem_cons_of_mem x hins)

theorem dedupFirst_nodup (l : List String) : (dedupFirst l).Nodup := by
  unfold dedupFirst
  exact (dedupFirstGo_nodup l []).1

theorem retainedWeeks_nodup (commits : List Commit) :
    (retainedWeeks commits).Nodup := by
  have h1 : (weekKeys commits).Nodup := by
    unfold weekKeys
    exact dedupFirst_nodup _
  have h2 : (sortStrs (weekKeys commits)).Nodup :=
    ((sortStrs_perm (weekKeys commits)).nodup_iff).mpr h1
  unfold retainedWeeks
  exact List.Nodup.sublist
    (List.drop_sublist ((sortStrs (weekKeys commits)).length - 10)
      (sortStrs (weekKeys commits))) h2

theorem filter_mem_cons_length (lbl : Commit → String) (w : String)
    (ws : List String) (hw : w ∉ ws) (commits : List Commit) :
    (commits.filter (fun c => decide (lbl c ∈ w :: ws))).length
      = (commits.filter (fun c => lbl c == w)).length
        + (commits.filter (fun c => decide (lbl c ∈ ws))).length := by
  induction commits with
  | nil => simp
  | cons c cs ih =>
    rw [List.filter_cons, List.filter_cons, List.filter_cons]
    by_cases hc : lbl c = w
    · rw [if_pos (by simp [hc]), if_pos (by simp [hc]),
        if_neg (by simpa [hc] using hw)]
      simp only [List.length_cons, ih]
      omega
    · by_cases hm : lbl c ∈ ws
      · rw [if_pos (by simp only [decide_eq_true_eq, List.mem_cons]; exact Or.inr hm),
          if_neg (by simp [hc]), if_pos (by simpa using hm)]
        simp only [List.length_cons, ih]
        omega
      · rw [if_neg (by simp [List.mem_cons, hc, hm]), if_neg (by simp [hc]),
          if_neg (by simpa using hm)]
        exact ih

theorem sum_filter_partition (lbl : Commit → String) (commits : List Commit) :
    ∀ ws : List String, ws.Nodup →
    (ws.map (fun w => (commits.filter (fun c => lbl c == w)).length)).sum
      = (commits.filter (fun c => decide (lbl c ∈ ws))).length := by
  intro ws
  induction ws with
  | nil => intro _; simp
  | cons w ws2 ih =>
    intro hnd
    obtain ⟨hw, hnd2⟩ := List.nodup_cons.mp hnd
    simp only [List.map_cons, List.sum_cons, ih hnd2]
    rw [filter_mem_cons_length lbl w ws2 hw commits]

/-- C6: the musical encoder keeps only the last ten week labels in
ascending lexicographic order (every discarded label is bounded above by
every retained label), emits the movements in exactly that order, emits
exactly one note per commit whose week label is retained, and emits no
movement at all for an empty commit list. -/
theorem c6_weekly_movements (commits : List Commit) (stats : Stats) :
    (create_musical_representation [] stats).movements = []
    ∧ (create_musical_representation commits stats).movements.map Movement.name
        = (retainedWeeks commits).map (fun w => "Week of " ++ w)
    ∧ (retainedWeeks commits).Pairwise (fun a b => a ≤ b)
    ∧ (retainedWeeks commits).length = min (weekKeys commits).length 10
    ∧ (∀ w ∈ (sortStrs (weekKeys commits)).take
          ((sortStrs (weekKeys commits)).length - 10),
        ∀ r ∈ retainedWeeks commits, w ≤ r)
    ∧ ((create_musical_representation commits stats).movements.map
          (fun m => m.notes.length)).sum
        = (commits.filter
            (fun c => decide (weekLabel c.date ∈ retainedWeeks commits))).length := by
  refine ⟨rfl, ?_, ?_, ?_, ?_, ?_⟩
  · simp only [create_musical_representation, List.map_map]
    rfl
  · have hs := sortStrs_sorted (weekKeys commits)
    unfold retainedWeeks
    exact List.Pairwise.sublist (List.drop_sublist _ _) hs
  · unfold retainedWeeks
    have hlen : (sortStrs (weekKeys commits)).length = (weekKeys commits).length :=
      (sortStrs_perm (weekKeys commits)).length_eq
    rw [List.length_drop]
    omega
  · intro w hw r hr
    have hs := sortStrs_sorted (weekKeys commits)
    have hsplit := List.take_append_drop
      ((sortStrs (weekKeys commits)).length - 10) (sortStrs (weekKeys commits))
    rw [← hsplit] at hs
    unfold retainedWeeks at hr
    exact (List.pairwise_append.mp hs).2.2 w hw r hr
  · have hnd := retainedWeeks_nodup commits
    rw [← sum_filter_partition (fun c => weekLabel c.date) commits
      (retainedWeeks commits) hnd]
    simp only [create_musical_representation, List.map_map, commitsOfWeek]
    congr 1
    refine List.map_congr_left (fun w _ => ?_)
    simp [Function.comp, List.length_map]

/-- C7: every note emitted by the encoder takes its pitch from the fixed
table applied to the commit's classification, duration 1 for release and
1/2 otherwise, velocity 100 for release and 80 otherwise, and time equal to
the commit's hour divided by 24, which lies in [0, 23/24] when every hour
is below 24. -/
theorem c7_note_fields (commits : List Commit) (stats : Stats)
    (hh : ∀ c ∈ commits, c.hour < 24) :
    ∀ mv ∈ (create_musical_representation commits stats).movements,
    ∀ n ∈ mv.notes,
    ∃ c ∈ commits,
      n.pitch = note_map (classify_note c.message)
      ∧ n.duration
          = (if classify_note c.message = CommitType.release then 1 else 1 / 2)
      ∧ n.velocity
          = (if classify_note c.message = CommitType.release then 100 else 80)
      ∧ n.time = (c.hour : ℚ) / 24
      ∧ 0 ≤ n.time ∧ n.time ≤ 23 / 24 := by
  intro mv hmv n hn
  simp only [create_musical_representation, List.mem_map] at hmv
  obtain ⟨w, hw, rfl⟩ := hmv
  simp only [List.mem_map] at hn
  obtain ⟨c, hc, rfl⟩ := hn
  simp only [commitsOfWeek] at hc
  have hcc : c ∈ commits := (List.mem_filter.mp hc).1
  refine ⟨c, hcc, rfl, rfl, rfl, rfl, ?_, ?_⟩
  · exact div_nonneg (by positivity) (by norm_num)
  · have hlt : c.hour ≤ 23 := Nat.lt_succ_iff.mp (hh c hcc)
    have hq : (c.hour : ℚ) ≤ 23 := by exact_mod_cast hlt
    have h24 : (0 : ℚ) < 24 := by norm_num
    exact (div_le_div_iff_of_pos_right h24).mpr hq

theorem lookup_enumFrom_map (f : Nat → String) :
    ∀ (keys : List String) (n i : Nat), keys.Nodup → i < keys.length →
    lookupD ((List.enumFrom n keys).map (fun p => (p.2, f p.1)))
        (keys.getD i "") "piano"
      = f (n + i) := by
  intro keys
  induction keys with
  | nil =>
    intro n i _ hi
    simp at hi
  | cons k ks ih =>
    intro n i hnd hi
    obtain ⟨hk, hnd2⟩ := List.nodup_cons.mp hnd
    cases i with
    | zero =>
      simp [List.enumFrom, lookupD]
    | succ j =>
      have hj : j < ks.length := by simpa using hi
      have hne : (k == ks.getD j "") = false := by
        have hmem : ks.getD j "" ∈ ks := by
          rw [List.getD_eq_getElem ks "" hj]
          exact List.getElem_mem hj
        simp only [beq_eq_false_iff_ne, ne_eq]
        intro he
        exact hk (he ▸ hmem)
      simp only [List.enumFrom, List.map_cons, List.getD_cons_succ, lookupD, hne,
        Bool.false_eq_true, if_false]
      have h2 := ih (n + 1) j hnd2 hj
      have h3 : n + 1 + j = n + (j + 1) := by omega
      rw [h3] at h2
      exact h2

/-- C8: with distinct author keys, the instrument looked up for the i-th
enumerated author is the fixed five-element list at index i mod 5, and every
emitted note's instrument is that map's entry for the commit's author
(piano by default). -/
theorem c8_instrument_assignment (commits : List Commit) (stats : Stats)
    (hnd : (stats.authors.map Prod.fst).Nodup) :
    (∀ i, i < stats.authors.length →
      lookupD (author_instruments stats)
          ((stats.authors.map Prod.fst).getD i "") "piano"
        = instruments.getD (i % 5) "")
    ∧ (∀ mv ∈ (create_musical_representation commits stats).movements,
       ∀ n ∈ mv.notes,
       ∃ c ∈ commits,
         n.instrument = lookupD (author_instruments stats) c.author "piano") := by
  constructor
  · intro i hi
    have hlen : i < (stats.authors.map Prod.fst).length := by simpa using hi
    have h := lookup_enumFrom_map (fun j => instruments.getD (j % 5) "")
      (stats.authors.map Prod.fst) 0 i hnd hlen
    simpa [author_instruments, List.enum] using h
  · intro mv hmv n hn
    simp only [create_musical_representation, List.mem_map] at hmv
    obtain ⟨w, hw, rfl⟩ := hmv
    simp only [List.mem_map] at hn
    obtain ⟨c, hc, rfl⟩ := hn
    simp only [commitsOfWeek] at hc
    exact ⟨c, (List.mem_filter.mp hc).1, rfl⟩

/-- Date of the commit used by the musical witnesses. -/
def wDate : DateTime := ⟨2024, 1, 1, 10, 0, 0, 0, 0⟩

/-- Commit used by the musical witnesses ("fix bug" by Alice at 10:00). -/
def wCommit : Commit :=
  { hash := "abc", author := "Alice", email := "a@x", date := wDate,
    message := "fix bug", day := "2024-01-01", hour := 10, weekday := "Monday" }

/-- Accumulator used by the musical witnesses (one author). -/
def wStats8 : Stats := { emptyStats with authors := [("Alice", 1)] }

/-- The single movement the encoder produces for the witness commit. -/
def wMovement : Movement :=
  { name := "Week of 2024-W00",
    notes := [mkNote (author_instruments wStats8) wCommit] }

/-- C6 (witness): the structural properties evaluated on a one-commit
stream, which yields exactly one movement for week 2024-W00. -/
theorem c6_weekly_movements_witness :
    (create_musical_representation [] wStats8).movements = []
    ∧ (create_musical_representation [wCommit] wStats8).movements.map Movement.name
        = (retainedWeeks [wCommit]).map (fun w => "Week of " ++ w)
    ∧ (retainedWeeks [wCommit]).Pairwise (fun a b => a ≤ b)
    ∧ (retainedWeeks [wCommit]).length = min (weekKeys [wCommit]).length 10
    ∧ (∀ w ∈ (sortStrs (weekKeys [wCommit])).take
          ((sortStrs (weekKeys [wCommit])).length - 10),
        ∀ r ∈ retainedWeeks [wCommit], w ≤ r)
    ∧ ((create_musical_representation [wCommit] wStats8).movements.map
          (fun m => m.notes.length)).sum
        = ([wCommit].filter
            (fun c => decide (weekLabel c.date ∈ retainedWeeks [wCommit]))).length :=
  c6_weekly_movements [wCommit] wStats8

/-- C7 (witness): the note-field characterization applied to the witness
commit's note, whose hour 10 gives time 10/24. -/
theorem c7_note_fields_witness :
    (∀ c ∈ [wCommit], c.hour < 24)
    ∧ wMovement ∈ (create_musical_representation [wCommit] wStats8).movements
    ∧ mkNote (author_instruments wStats8) wCommit ∈ wMovement.notes
    ∧ (∃ c ∈ [wCommit],
        (mkNote (author_instruments wStats8) wCommit).pitch
            = note_map (classify_note c.message)
        ∧ (mkNote (author_instruments wStats8) wCommit).duration
            = (if classify_note c.message = CommitType.release then 1 else 1 / 2)
        ∧ (mkNote (author_instruments wStats8) wCommit).velocity
            = (if classify_note c.message = CommitType.release then 100 else 80)
        ∧ (mkNote (author_instruments wStats8) wCommit).time = (c.hour : ℚ) / 24
        ∧ 0 ≤ (mkNote (author_instruments wStats8) wCommit).time
        ∧ (mkNote (author_instruments wStats8) wCommit).time ≤ 23 / 24) := by
  have hh : ∀ c ∈ [wCommit], c.hour < 24 := by decide
  have hmv : wMovement ∈ (create_musical_representation [wCommit] wStats8).movements :=
    List.mem_singleton.mpr rfl
  have hn : mkNote (author_instruments wStats8) wCommit ∈ wMovement.notes :=
    List.mem_singleton.mpr rfl
  exact ⟨hh, hmv, hn, c7_note_fields [wCommit] wStats8 hh wMovement hmv _ hn⟩

/-- C8 (witness): the instrument assignment evaluated on the one-author
accumulator: Alice, at index 0, plays `instruments[0 % 5] = piano`, and the
witness note's instrument is the looked-up entry. -/
theorem c8_instrument_assignment_witness :
    (wStats8.authors.map Prod.fst).Nodup
    ∧ ((∀ i, i < wStats8.authors.length →
        lookupD (author_instruments wStats8)
            ((wStats8.authors.map Prod.fst).getD i "") "piano"
          = instruments.getD (i % 5) "")
      ∧ (∀ mv ∈ (create_musical_representation [wCommit] wStats8).movements,
         ∀ n ∈ mv.notes,
         ∃ c ∈ [wCommit],
           n.instrument = lookupD (author_instruments wStats8) c.author "piano")) :=
  ⟨by decide, c8_instrument_assignment [wCommit] wStats8 (by decide)⟩

/-- String of `n` copies of one character (`'=' * 60` and the glyph bars). -/
def repChar (n : Nat) (c : Char) : String := String.mk (List.replicate n c)

/-- Stable descending insertion by count: the new entry goes after every
entry with a greater-or-equal count, so ties keep their dict order. -/
def insertByCountDesc (x : String × Nat) :
    List (String × Nat) → List (String × Nat)
  | [] => [x]
  | y :: ys => if y.2 < x.2 then x :: y :: ys else y :: insertByCountDesc x ys

/-- Model of `sorted(items, key=lambda x: x[1], reverse=True)` (a stable
descending sort by count). -/
def sortByCountDesc (l : List (String × Nat)) : List (String × Nat) :=
  l.foldl (fun acc x => insertByCountDesc x acc) []

/-- Python `str.capitalize()` for the ASCII tag names. -/
def capitalize (s : String) : String :=
  match s.data with
  | [] => ""
  | c :: rest => String.mk (c.toUpper :: rest.map Char.toLower)

/-- Fixed-point formatting `f"{x:.1f}"` for the nonnegative magnitudes the
report prints: round half-to-even at one decimal place. -/
def fmt1 (q : ℚ) : String :=
  let t := q * 10
  let fl := t.floor
  let r := t - (fl : ℚ)
  let n : Int :=
    if r < 1 / 2 then fl
    else if 1 / 2 < r then fl + 1
    else if fl % 2 = 0 then fl else fl + 1
  let m := n.toNat
  toString (m / 10) ++ "." ++ toString (m % 10)

/-- First maximal entry of a counter, modelling
`max(items, key=lambda x: x[1])` (the first entry wins ties). -/
def firstMaxBy (l : List (String × Nat)) : Option (String × Nat) :=
  l.foldl (fun acc e =>
    match acc with
    | none => some e
    | some b => if b.2 < e.2 then some e else some b) none

/-- Maximum of the stored hour counts (`max(commits_by_hour.values())`). -/
def maxValues (l : List (Nat × Nat)) : Nat := (l.map Prod.snd).foldl max 0

/-- Join a list of strings with a separator (`'   '.join(...)`). -/
def joinSep (sep : String) : List String → String
  | [] => ""
  | [x] => x
  | x :: y :: rest => x ++ sep ++ joinSep sep (y :: rest)

/-- The report renderer `generate_summary_report` (lines 186-265) as the
list of report lines; `none` models an uncaught division-by-zero, and the
sections appear exactly in source order. -/
def generate_summary_report (stats : Stats) : Option (List String) := do
  let header := [repChar 60 '=', "PARA GIT HISTORY: A COSMIC ANALYSIS",
    repChar 60 '=', ""]
  let totals := ["Total Commits: " ++ toString stats.total_commits,
    "Active Days: " ++ toString stats.commits_by_day.length,
    "Contributors: " ++ toString stats.authors.length, ""]
  let topAuthors := ((sortByCountDesc stats.authors).take 5).map (fun e =>
    "  " ++ e.1 ++ ": " ++ toString e.2 ++ " commits "
      ++ repChar (min (e.2 / 10 + 1) 5) '⭐')
  let total_typed := sumValues stats.commit_types
  let typeLines ← mapOpt (fun e => do
      let frac ← pyDiv (e.2 : ℚ) (total_typed : ℚ)
      let percentage := frac * 100
      let bar := repChar (percentage / 2).floor.toNat '█'
      some ("  " ++ capitalize e.1 ++ ": " ++ bar ++ " " ++ fmt1 percentage ++ "%"))
    (sortByCountDesc stats.commit_types)
  let max_commits := if stats.commits_by_hour.length ≠ 0
    then maxValues stats.commits_by_hour else 1
  let hour_chart ← mapOpt (fun hour => do
      let count := lookupD stats.commits_by_hour hour 0
      let frac ← pyDiv (count : ℚ) (max_commits : ℚ)
      let height := (frac * 8).floor.toNat
      some (if 0 < height then repChar height '█' else "·"))
    (List.range 24)
  let hourHeader := "  "
    ++ String.join ((List.range 8).map (fun k => pad2 (3 * k) ++ " "))
  let hourBars := "  "
    ++ joinSep "   " ((List.range 8).map (fun i => hour_chart.getD (3 * i) ""))
  let langLines := ((sortByCountDesc stats.languages).take 10).map (fun e =>
    "  ." ++ e.1 ++ ": " ++ toString e.2 ++ " files touched")
  let relLines := (stats.release_history.drop
      (stats.release_history.length - 5)).map
    (fun r => "  " ++ r.1 ++ ": " ++ r.2)
  let facts1 := if stats.commits_by_day.length ≠ 0 then
      let best := (firstMaxBy stats.commits_by_day).getD ("", 0)
      ["  🌟 Brightest Day: " ++ best.1 ++ " with " ++ toString best.2 ++ " commits"]
    else []
  let sortedDays := sortStrs (stats.commits_by_day.map Prod.fst)
  let recent_days := sortedDays.drop (sortedDays.length - 30)
  let recent_commits := (recent_days.map
    (fun d => lookupD stats.commits_by_day d 0)).sum
  let avg_recent : ℚ := if recent_days.length ≠ 0
    then (recent_commits : ℚ) / (recent_days.length : ℚ) else 0
  let facts2 :=
    ["  📈 Recent Activity: " ++ fmt1 avg_recent ++ " commits/day (last 30 days)"]
  let facts3 := if stats.file_changes.length ≠ 0 then
      let most := (firstMaxBy stats.file_changes).getD ("", 0)
      ["  🔥 Hottest File: " ++ most.1 ++ " (" ++ toString most.2 ++ " changes)"]
    else []
  some (header ++ totals
    ++ ["TOP STAR GAZERS:"] ++ topAuthors ++ [""]
    ++ ["COMMIT CONSTELLATION TYPES:"] ++ typeLines ++ [""]
    ++ ["CODING HOURS (24h UTC):"] ++ [hourHeader, hourBars] ++ [""]
    ++ ["LANGUAGE UNIVERSE:"] ++ langLines ++ [""]
    ++ ["RECENT STELLAR EVENTS (Releases):"] ++ relLines ++ [""]
    ++ ["COSMIC FACTS:"] ++ facts1 ++ facts2 ++ facts3
    ++ [""] ++ [repChar 60 '='])

/-- C2 (counterexample): on the all-empty accumulator the renderer still
emits the recent-activity fun-fact line, with the zero-default average
formatted as 0.0, so "omits all three fun-fact lines" is false as stated. -/
theorem c2_counterexample :
    ((generate_summary_report emptyStats).getD []).contains
        "  📈 Recent Activity: 0.0 commits/day (last 30 days)" = true := by
  with_unfolding_all decide

/-- C2 (amended): on an accumulator whose mappings are all empty the
renderer raises no error; the brightest-day and hottest-file fun-fact lines
are omitted, while the recent-activity line is still emitted with the
zero-default average 0.0. -/
theorem c2_empty_report :
    (generate_summary_report emptyStats).isSome = true
    ∧ ((generate_summary_report emptyStats).getD []).all
        (fun l => !(leadsWith "  🌟 Brightest Day:".data l.data)) = true
    ∧ ((generate_summary_report emptyStats).getD []).all
        (fun l => !(leadsWith "  🔥 Hottest File:".data l.data)) = true
    ∧ ((generate_summary_report emptyStats).getD []).contains
        "  📈 Recent Activity: 0.0 commits/day (last 30 days)" = true := by
  refine ⟨?_, ?_, ?_, ?_⟩ <;> with_unfolding_all decide
